import Mathlib

/-!
Verification of the device-communication protocol stack of mobile-cli-lib
(src/mobile/ios/ios-core.ts) against its natural-language specification.

The embedding models:
- the completion predicate MobileDevice.isDataReceivingCompleted,
- the GDB remote-serial-protocol packet framing of GDBServer.send and the
  launch handshake GDBServer.run,
- the stop-reply signal watcher GDBSignalWatcher._write,
- the console-output adapter GDBStandardOutputAdapter._transform,
- the streaming length-prefixed frame state machine of
  PosixSocket.receiveMessage (binary-plist branch),
- the synchronous exchange reader WinSocket.receiveMessageCore / WinSocket.read,
- the plist construction WinSocket.createPlist.

JavaScript values are modelled explicitly (tagged variants with JS truthiness),
byte buffers as List Nat, machine integers as Int/Nat with explicit wrapping.
-/

set_option maxHeartbeats 1000000

/-! ## JavaScript value model (for decoded plist dictionaries) -/

/-- A JavaScript value, restricted to the shapes produced by the plist
decoders and consumed by the code under verification: strings, numbers,
booleans, byte buffers and string-keyed objects. -/
inductive JSVal where
  | str (s : String)
  | num (n : Int)
  | bool (b : Bool)
  | bytes (bs : List Nat)
  | dict (entries : List (String × JSVal))

/-- JS truthiness of a value: empty string, 0 and false are falsy; buffers
and objects are always truthy. -/
def jsTruthy : JSVal → Bool
  | .str s => s ≠ ""
  | .num n => n ≠ 0
  | .bool b => b
  | .bytes _ => true
  | .dict _ => true

/-- Property access on a JS object: first binding wins; a missing property is
undefined. -/
def jsGet (entries : List (String × JSVal)) (key : String) : Option JSVal :=
  (entries.find? (fun e => e.1 == key)).map (fun e => e.2)

/-- Truthiness of a property-access result (undefined is falsy). -/
def jsGetTruthy (entries : List (String × JSVal)) (key : String) : Bool :=
  match jsGet entries key with
  | none => false
  | some v => jsTruthy v

/-- Whether the object has the property at all. -/
def jsHas (entries : List (String × JSVal)) (key : String) : Bool :=
  (jsGet entries key).isSome

/-! ## MobileDevice.isDataReceivingCompleted (ios-core.ts:633-635)

Source: return reply.Status && reply.Complete && !reply.PercentComplete;
The result of the JS conjunction is truthy exactly when every conjunct is
truthy; we model that truthiness. -/

/-- Embedding of MobileDevice.isDataReceivingCompleted: truthiness of
reply.Status && reply.Complete && !reply.PercentComplete. -/
def isDataReceivingCompleted (reply : List (String × JSVal)) : Bool :=
  jsGetTruthy reply "Status" && jsGetTruthy reply "Complete" &&
    !jsGetTruthy reply "PercentComplete"

/-! ## GDB packet encoding (ios-core.ts:998-1007, 1113-1122) -/

/-- Embedding of getCharacterCodePoint: asserts the character code is not in
the range 0xD800..0xFFFF (the source's assert), then returns the code.
none models the assertion failing. -/
def getCharacterCodePoint (c : Char) : Option Nat :=
  if 0xD800 ≤ c.toNat ∧ c.toNat ≤ 0xFFFF then none else some c.toNat

/-- Whether every character of the payload passes getCharacterCodePoint. -/
def payloadAccepted (p : String) : Bool :=
  p.data.all (fun c => (getCharacterCodePoint c).isSome)

/-- Lowercase hexadecimal digit characters, as produced by JS
Number.prototype.toString(16). -/
def hexDigitChar (n : Nat) : Char :=
  Nat.digitChar n

/-- JS Number.prototype.toString(16) for a natural number: most significant
digit first, no zero padding, "0" for zero. The first argument is fuel
(any fuel above the number of digits gives the same answer). -/
def natToHexAux : Nat → Nat → List Char
  | 0, _ => []
  | fuel + 1, n =>
    if n < 16 then [hexDigitChar n]
    else natToHexAux fuel (n / 16) ++ [hexDigitChar (n % 16)]

/-- JS n.toString(16) as a Lean String. -/
def natToHex (n : Nat) : String :=
  ⟨natToHexAux (n + 1) n⟩

/-- The checksum loop of GDBServer.send: sum of the payload character codes,
masked with & 255. -/
def gdbChecksum (p : String) : Nat :=
  (p.data.foldl (fun acc c => acc + c.toNat) 0) &&& 255

/-- Embedding of GDBServer.send (ios-core.ts:1113-1122): the byte string
written to the socket for a payload, or none when getCharacterCodePoint
rejects a character. data = util.format of dollar, payload, hash, checksum
rendered by toString(16). -/
def gdbPacketData (p : String) : Option String :=
  if payloadAccepted p then
    some ("$" ++ p ++ "#" ++ natToHex (gdbChecksum p))
  else none

/-! ## GDBSignalWatcher._write (ios-core.ts:1056-1070)

Source loop: for i < packet.length - 2, exit(1) when packet[i] is the code of
the dollar sign, packet[i+1] is the code of T or S, and packet[i+2] is the
code of the digit nine. We model whether process.exit(1) is reached. -/

/-- Embedding of the GDBSignalWatcher._write scan over one inbound chunk:
true when the loop calls process.exit(1). Codes: 36 dollar, 84 T, 83 S,
57 nine. -/
def gdbSignalKill : List Nat → Bool
  | a :: b :: c :: rest =>
    (a == 36 && (b == 84 || b == 83) && c == 57) || gdbSignalKill (b :: c :: rest)
  | _ => false

/-- Character codes of a string, for writing concrete byte chunks. -/
def strCodes (s : String) : List Nat :=
  s.data.map Char.toNat

/-! ## PosixSocket.receiveMessage streaming state machine (ios-core.ts:806-905)

State: an accumulation buffer, a ReadState and the current expected length
(initially 4). On each inbound chunk the chunk is appended to the buffer and
the while loop runs while buffer.length >= this.length:
- Length: this.length = buffer.readInt32BE(0) (signed big-endian), the first
  4 bytes are sliced off, state becomes Plist;
- Plist: buffer.slice(0, this.length) is one frame (decoded inside try/catch),
  then buffer = buffer.slice(this.length), state = Length, length = 4.
We model the loop with explicit fuel; a none result means the fuel ran out. -/

inductive ReadState where
  | Length
  | Plist
deriving DecidableEq

structure MState where
  buffer : List Nat
  rstate : ReadState
  expLen : Int
deriving DecidableEq

/-- Buffer.readInt32BE(0): signed 32-bit big-endian read of the first four
bytes. -/
def readInt32BE (b : List Nat) : Int :=
  let n : Nat := b.getD 0 0 * 2 ^ 24 + b.getD 1 0 * 2 ^ 16 + b.getD 2 0 * 2 ^ 8 + b.getD 3 0
  if n < 2 ^ 31 then (n : Int) else (n : Int) - 2 ^ 32

/-- JS Buffer.slice index resolution: negative indices count from the end,
and indices are clamped to the buffer length. -/
def jsSliceIndex (len : Nat) (i : Int) : Nat :=
  if i < 0 then min ((len : Int) + i).toNat len else min i.toNat len

/-- buffer.slice(0, e). -/
def bufSliceTo (b : List Nat) (e : Int) : List Nat :=
  b.take (jsSliceIndex b.length e)

/-- buffer.slice(s). -/
def bufSliceFrom (b : List Nat) (s : Int) : List Nat :=
  b.drop (jsSliceIndex b.length s)

/-- The while loop of the data handler: drains the buffer while
buffer.length >= this.length, emitting the sliced frames in order.
Fuel-indexed; none models fuel exhaustion. -/
def drainF : Nat → MState → Option (MState × List (List Nat))
  | 0, _ => none
  | fuel + 1, s =>
    if s.expLen ≤ (s.buffer.length : Int) then
      match s.rstate with
      | .Length =>
        drainF fuel ⟨s.buffer.drop 4, .Plist, readInt32BE s.buffer⟩
      | .Plist =>
        match drainF fuel ⟨bufSliceFrom s.buffer s.expLen, .Length, 4⟩ with
        | none => none
        | some (s2, fs) => some (s2, bufSliceTo s.buffer s.expLen :: fs)
    else some (s, [])

/-- Initial receiver state (ios-core.ts:809-813). -/
def initialMState : MState := ⟨[], .Length, 4⟩

/-- One inbound data event: append the chunk to the buffer and drain.
The fuel bound is sufficient for every reachable configuration (each pair of
loop iterations consumes at least 4 bytes). -/
def feed (s : MState) (chunk : List Nat) : Option (MState × List (List Nat)) :=
  drainF (s.buffer.length + chunk.length + 8) ⟨s.buffer ++ chunk, s.rstate, s.expLen⟩

/-- Feeding a sequence of chunks, concatenating the emitted frames. -/
def feedAll : MState → List (List Nat) → Option (MState × List (List Nat))
  | s, [] => some (s, [])
  | s, c :: cs =>
    match feed s c with
    | none => none
    | some (s1, fs) =>
      match feedAll s1 cs with
      | none => none
      | some (s2, fs2) => some (s2, fs ++ fs2)

/-- The sender-side 4-byte big-endian length prefix (bufferpack ">i"). -/
def lenBE4 (n : Nat) : List Nat :=
  [n / 2 ^ 24 % 256, n / 2 ^ 16 % 256, n / 2 ^ 8 % 256, n % 256]

/-- One length-prefixed frame. -/
def frameBytes (payload : List Nat) : List Nat :=
  lenBE4 payload.length ++ payload

/-- N frames encoded back to back. -/
def streamBytes (ps : List (List Nat)) : List Nat :=
  (ps.map frameBytes).flatten

/-- Specification-level accounting: the payloads whose frames are wholly
contained in the byte prefix d of the stream. -/
def alignEmit : List (List Nat) → List Nat → List (List Nat)
  | [], _ => []
  | p :: ps, d =>
    if 4 + p.length ≤ d.length then p :: alignEmit ps (d.drop (4 + p.length)) else []

/-- Specification-level accounting: the payloads not yet fully received, and
the partial bytes of the next frame, after the byte prefix d arrived. -/
def alignDrop : List (List Nat) → List Nat → List (List Nat) × List Nat
  | [], d => ([], d)
  | p :: ps, d =>
    if 4 + p.length ≤ d.length then alignDrop ps (d.drop (4 + p.length)) else (p :: ps, d)

/-- The quiescent machine state determined by the partial bytes b of the next
frame (ps are the payloads not yet fully received). -/
def mstateOf : List (List Nat) → List Nat → MState
  | [], b => ⟨b, .Length, 4⟩
  | p :: _, b =>
    if b.length < 4 then ⟨b, .Length, 4⟩ else ⟨b.drop 4, .Plist, (p.length : Int)⟩

/-! ## GDBStandardOutputAdapter._transform (ios-core.ts:1009-1049)

The loop scans a chunk for a dollar byte, then advances until a hash byte
(this inner while loop does not terminate when no hash follows - the index
runs past the end of the buffer where every read is undefined), skips two
checksum bytes, and, when the first payload byte is O and the second is not
K, hex-decodes the rest of the payload (after toString("ascii"), which masks
each byte to 7 bits) and feeds it through a stateful UTF-8 string decoder. -/

/-- Whether a byte is a UTF-8 continuation byte. -/
def utf8Cont (b : Nat) : Bool := 128 ≤ b && b < 192

/-- Incremental UTF-8 decoding: decodes complete scalar sequences from the
front, emits U+FFFD for invalid bytes, and returns the trailing incomplete
sequence (at most 3 bytes) as leftover, as node's StringDecoder does. -/
def utf8Run : List Nat → List Char × List Nat
  | [] => ([], [])
  | b :: rest =>
    if b < 128 then
      let r := utf8Run rest
      (Char.ofNat b :: r.1, r.2)
    else if b < 192 then
      let r := utf8Run rest
      (Char.ofNat 65533 :: r.1, r.2)
    else if b < 224 then
      match rest with
      | [] => ([], [b])
      | c :: rest2 =>
        if utf8Cont c then
          let r := utf8Run rest2
          (Char.ofNat ((b - 192) * 64 + (c - 128)) :: r.1, r.2)
        else
          let r := utf8Run (c :: rest2)
          (Char.ofNat 65533 :: r.1, r.2)
    else if b < 240 then
      match rest with
      | [] => ([], [b])
      | c :: rest2 =>
        if utf8Cont c then
          match rest2 with
          | [] => ([], [b, c])
          | d :: rest3 =>
            if utf8Cont d then
              let r := utf8Run rest3
              (Char.ofNat ((b - 224) * 4096 + (c - 128) * 64 + (d - 128)) :: r.1, r.2)
            else
              let r := utf8Run (d :: rest3)
              (Char.ofNat 65533 :: r.1, r.2)
        else
          let r := utf8Run (c :: rest2)
          (Char.ofNat 65533 :: r.1, r.2)
    else if b < 248 then
      match rest with
      | [] => ([], [b])
      | c :: rest2 =>
        if utf8Cont c then
          match rest2 with
          | [] => ([], [b, c])
          | d :: rest3 =>
            if utf8Cont d then
              match rest3 with
              | [] => ([], [b, c, d])
              | e :: rest4 =>
                if utf8Cont e then
                  let r := utf8Run rest4
                  (Char.ofNat ((b - 240) * 262144 + (c - 128) * 4096 + (d - 128) * 64 + (e - 128)) :: r.1, r.2)
                else
                  let r := utf8Run (e :: rest4)
                  (Char.ofNat 65533 :: r.1, r.2)
            else
              let r := utf8Run (d :: rest3)
              (Char.ofNat 65533 :: r.1, r.2)
        else
          let r := utf8Run (c :: rest2)
          (Char.ofNat 65533 :: r.1, r.2)
    else
      let r := utf8Run rest
      (Char.ofNat 65533 :: r.1, r.2)
termination_by l => l.length
decreasing_by all_goals (simp only [List.length_cons]; omega)

/-- StringDecoder.write: prepend the pending incomplete bytes, decode, and
keep the new incomplete tail. Returns (new pending, decoded text). -/
def utf8Write (pending bytes : List Nat) : List Nat × String :=
  let r := utf8Run (pending ++ bytes)
  (r.2, ⟨r.1⟩)

/-- Hex value of an ASCII character code, as Buffer(_, "hex") accepts. -/
def hexVal (c : Nat) : Option Nat :=
  if 48 ≤ c ∧ c ≤ 57 then some (c - 48)
  else if 97 ≤ c ∧ c ≤ 102 then some (c - 87)
  else if 65 ≤ c ∧ c ≤ 70 then some (c - 55)
  else none

/-- new Buffer(hexString, "hex"): pairwise hex decoding, stopping at the
first invalid or incomplete pair. -/
def hexDecodePairs : List Nat → List Nat
  | c1 :: c2 :: rest =>
    match hexVal c1, hexVal c2 with
    | some h, some l => (16 * h + l) :: hexDecodePairs rest
    | _, _ => []
  | _ => []

/-- The inner while loop searching for the hash byte (35): splits the bytes
at the first hash. none means no hash exists, in which case the source loop
never terminates. -/
def splitAtHash : List Nat → Option (List Nat × List Nat)
  | [] => none
  | b :: rest =>
    if b == 35 then some ([], rest)
    else
      match splitAtHash rest with
      | none => none
      | some (p, a) => some (b :: p, a)

theorem splitAtHash_length {l p a : List Nat} (h : splitAtHash l = some (p, a)) :
    a.length < l.length := by
  induction l generalizing p a with
  | nil => simp [splitAtHash] at h
  | cons b rest ih =>
    by_cases hb : (b == 35) = true
    · rw [splitAtHash, if_pos hb] at h
      obtain ⟨rfl, rfl⟩ : [] = p ∧ rest = a := by
        have := Option.some.inj h
        exact ⟨congrArg Prod.fst this, congrArg Prod.snd this⟩
      simp
    · rw [splitAtHash, if_neg hb] at h
      cases hsp : splitAtHash rest with
      | none => rw [hsp] at h; exact absurd h (by simp)
      | some pa =>
        obtain ⟨p2, a2⟩ := pa
        rw [hsp] at h
        obtain ⟨hp, ha⟩ : b :: p2 = p ∧ a2 = a := by
          have := Option.some.inj h
          exact ⟨congrArg Prod.fst this, congrArg Prod.snd this⟩
        have := ih hsp
        rw [← ha]
        simp only [List.length_cons]
        omega

/-- The qualification test packet[start] === O && packet[start + 1] !== K:
for a single-byte payload the byte after the payload is the hash (35),
which is not K, so a lone O qualifies; an empty payload starts with the
hash itself and never qualifies. Codes: 79 O, 75 K. -/
def gdbQualifies : List Nat → Bool
  | [] => false
  | [o] => o == 79
  | o :: k :: _ => o == 79 && k != 75

/-- Embedding of the GDBStandardOutputAdapter._transform scan over one chunk,
threading the UTF-8 decoder state. Returns none when the inner while loop
diverges (a dollar byte with no later hash byte); otherwise returns the new
decoder state and the text emitted for this chunk. -/
def gdbScan (pending : List Nat) : List Nat → Option (List Nat × String)
  | [] => some (pending, "")
  | b :: rest =>
    if b == 36 then
      match hsp : splitAtHash rest with
      | none => none
      | some (payload, after) =>
        if gdbQualifies payload then
          let w := utf8Write pending (hexDecodePairs ((payload.drop 1).map (fun x => x % 128)))
          match gdbScan w.1 (after.drop 2) with
          | none => none
          | some (p2, s2) => some (p2, w.2 ++ s2)
        else
          match gdbScan pending (after.drop 2) with
          | none => none
          | some (p2, s2) => some (p2, s2)
    else
      gdbScan pending rest
termination_by l => l.length
decreasing_by
  all_goals simp only [List.length_cons, List.length_drop]
  all_goals try (have hlt := splitAtHash_length hsp; simp only [List.length_cons] at hlt)
  all_goals omega

/-! ## WinSocket.createPlist (ios-core.ts:769-797)

For each key of the input dictionary the source chooses a plist node:
Buffer values become a data node holding the base64 rendering; Object values
become a dict node whose value is set to a fresh empty object (the entries of
the nested dictionary are never copied); numbers become integer nodes; all
remaining values (strings, booleans) become string nodes holding the value
itself. -/

/-- One base64 alphabet character. -/
def base64Digit (n : Nat) : Char :=
  if n < 26 then Char.ofNat (65 + n)
  else if n < 52 then Char.ofNat (97 + (n - 26))
  else if n < 62 then Char.ofNat (48 + (n - 52))
  else if n = 62 then '+'
  else '/'

/-- Buffer.toString("base64"). -/
def base64Encode : List Nat → List Char
  | [] => []
  | [a] => [base64Digit (a / 4 % 64), base64Digit (a % 4 * 16), '=', '=']
  | [a, b] => [base64Digit (a / 4 % 64), base64Digit (a % 4 * 16 + b / 16), base64Digit (b % 16 * 4), '=']
  | a :: b :: c :: rest =>
    base64Digit (a / 4 % 64) :: base64Digit (a % 4 * 16 + b / 16) ::
      base64Digit (b % 16 * 4 + c / 64) :: base64Digit (c % 64) :: base64Encode rest

/-- The value part of a plistlib node as built by createPlist. -/
inductive PlistVal where
  | strv (s : String)
  | boolv (b : Bool)
  | intv (n : Int)
  | datav (b64 : String)
  | emptyDict
deriving DecidableEq

/-- The node built for one dictionary value: a plistlib type tag and value.
The dict branch sets value to a fresh empty object, dropping the nested
entries (ios-core.ts:780-782). -/
def createPlistEntry : JSVal → String × PlistVal
  | .bytes bs => ("data", .datav ⟨base64Encode bs⟩)
  | .dict _ => ("dict", .emptyDict)
  | .num n => ("integer", .intv n)
  | .str s => ("string", .strv s)
  | .bool b => ("string", .boolv b)

/-- Embedding of WinSocket.createPlist: the keyed plistlib nodes, in key
order (the constant outer dict wrapper is omitted). -/
def createPlist (data : List (String × JSVal)) : List (String × (String × PlistVal)) :=
  data.map (fun e => (e.1, createPlistEntry e.2))

/-! ## WinSocket synchronous receive (ios-core.ts:658-671, 741-761)

WinSocket.read(bytes) allocates a buffer of the requested size, performs one
recv, fails on a negative result, returns null on zero, and otherwise
returns the whole allocated buffer - the number of bytes recv actually
wrote is discarded, so bytes beyond the written prefix keep their
(uninitialised) contents, modelled as zero.

receiveMessageCore: data = read(4); if data is not null (its length is
always the allocated 4), unpack a signed big-endian length, then loop:
r = read(left); null fails the call; otherwise reply += r and
left -= r.length, where r.length is again the allocated size. We script the
sequence of recv results. -/

/-- One recv outcome: the peer closed (recv returned 0), or recv wrote the
given bytes into the buffer. -/
inductive RecvResult where
  | closed
  | gotBytes (bs : List Nat)

/-- WinSocket.read for a requested size against a script of recv outcomes:
returns the full allocation (the received prefix padded with zeros), or
none for null. -/
def wsRead (count : Nat) : List RecvResult → Option (List Nat) × List RecvResult
  | [] => (none, [])
  | .closed :: rest => (none, rest)
  | .gotBytes bs :: rest =>
    (some (bs.take count ++ List.replicate (count - (bs.take count).length) 0), rest)

/-- Result of receiveMessageCore: the reply bytes, the explicit
errors.fail("Unable to read reply"), or fuel exhaustion of the model. -/
inductive WSResult where
  | ok (reply : List Nat)
  | readFail
  | outOfFuel
deriving DecidableEq

/-- The payload loop of receiveMessageCore: while left > 0, read(left);
null fails; else append and subtract the returned buffer's length. -/
def wsPayloadLoop : Nat → Int → List Nat → List RecvResult → WSResult
  | 0, _, _, _ => .outOfFuel
  | fuel + 1, left, reply, sc =>
    if 0 < left then
      match wsRead left.toNat sc with
      | (none, _) => .readFail
      | (some r, sc2) => wsPayloadLoop fuel (left - r.length) (reply ++ r) sc2
    else .ok reply

/-- Embedding of WinSocket.receiveMessageCore: read 4 length bytes (a null
read leaves the empty reply and returns it), unpack ">i", then run the
payload loop. -/
def receiveMessageCore (sc : List RecvResult) : WSResult :=
  let d := wsRead 4 sc
  match d.1 with
  | none => .ok []
  | some dat => wsPayloadLoop (sc.length + 1) (readInt32BE dat) [] d.2

/-! ## GDBServer.run (ios-core.ts:1088-1111)

The handshake writes, in order: the QStartNoAckMode packet, the raw byte +,
the QEnvironmentHexEncoded: packet, the QSetDisableASLR:1 packet, the A
packet whose payload joins per-argument triples
util.format("%d,%d,%s", arg.length * 2, index, hex(arg)) with commas
(arg.length is the JS string length, i.e. UTF-16 code units), the
qLaunchSuccess packet, and finally: on Windows always vCont;c; otherwise
vCont;c unless options.justlaunch, in which case D. -/

/-- Decimal digits of a natural number (fuel-indexed helper). -/
def natDecAux : Nat → Nat → List Char
  | 0, _ => []
  | fuel + 1, n =>
    if n < 10 then [Nat.digitChar n]
    else natDecAux fuel (n / 10) ++ [Nat.digitChar (n % 10)]

/-- util.format("%d", n) for a natural number. -/
def natDec (n : Nat) : String :=
  ⟨natDecAux (n + 1) n⟩

/-- UTF-8 encoding of one character (what new Buffer(string) stores). -/
def utf8EncodeChar (c : Char) : List Nat :=
  let n := c.toNat
  if n < 128 then [n]
  else if n < 2048 then [192 + n / 64, 128 + n % 64]
  else if n < 65536 then [224 + n / 4096, 128 + n / 64 % 64, 128 + n % 64]
  else [240 + n / 262144, 128 + n / 4096 % 64, 128 + n / 64 % 64, 128 + n % 64]

/-- new Buffer(string): the UTF-8 bytes of the string. -/
def utf8Bytes (s : String) : List Nat :=
  (s.data.map utf8EncodeChar).flatten

/-- JS String.prototype.length: UTF-16 code units. -/
def jsStrLen (s : String) : Nat :=
  s.data.foldl (fun n c => n + (if c.toNat < 65536 then 1 else 2)) 0

/-- Two lowercase hex digits of one byte (Buffer.toString("hex")). -/
def byteHex (b : Nat) : List Char :=
  [Nat.digitChar (b / 16 % 16), Nat.digitChar (b % 16)]

/-- Buffer.toString("hex") over a byte list. -/
def bytesToHex (bs : List Nat) : String :=
  ⟨(bs.map byteHex).flatten⟩

/-- util.format("%d,%d,%s", arg.length * 2, index, hex bytes of arg). -/
def gdbArgTriple (index : Nat) (arg : String) : String :=
  natDec (jsStrLen arg * 2) ++ "," ++ natDec index ++ "," ++ bytesToHex (utf8Bytes arg)

/-- The comma-joined encodedArguments expression of GDBServer.run. -/
def gdbEncodedArguments (argv : List String) : String :=
  String.intercalate "," (((List.range argv.length).zip argv).map (fun pr => gdbArgTriple pr.1 pr.2))

/-- Embedding of GDBServer.run: the ordered byte strings written to the
socket (packets through GDBServer.send, plus the one raw + byte). none
models a getCharacterCodePoint assertion failure while framing a packet. -/
def gdbRunWrites (isWindows justlaunch : Bool) (argv : List String) : Option (List String) := do
  let p1 ← gdbPacketData "QStartNoAckMode"
  let p3 ← gdbPacketData "QEnvironmentHexEncoded:"
  let p4 ← gdbPacketData "QSetDisableASLR:1"
  let pA ← gdbPacketData ("A" ++ gdbEncodedArguments argv)
  let p6 ← gdbPacketData "qLaunchSuccess"
  if isWindows then
    let pc ← gdbPacketData "vCont;c"
    pure [p1, "+", p3, p4, pA, p6, pc]
  else if !justlaunch then
    let pc ← gdbPacketData "vCont;c"
    pure [p1, "+", p3, p4, pA, p6, pc]
  else
    let pd ← gdbPacketData "D"
    pure [p1, "+", p3, p4, pA, p6, pd]

/-- Modelled from the spec: the launch handshake exactly as claim C6 states
it - the same packets in the same order, per-argument triples 2L,i,H with L
the argument's byte length, and the final directive D when the session is
configured launch-only, vCont;c otherwise (the spec has no platform
branch). -/
def specRunWrites (launchOnly : Bool) (argv : List String) : Option (List String) := do
  let p1 ← gdbPacketData "QStartNoAckMode"
  let p3 ← gdbPacketData "QEnvironmentHexEncoded:"
  let p4 ← gdbPacketData "QSetDisableASLR:1"
  let pA ← gdbPacketData ("A" ++ String.intercalate ","
    (((List.range argv.length).zip argv).map (fun pr =>
      natDec ((utf8Bytes pr.2).length * 2) ++ "," ++ natDec pr.1 ++ "," ++ bytesToHex (utf8Bytes pr.2))))
  let p6 ← gdbPacketData "qLaunchSuccess"
  if launchOnly then
    let pd ← gdbPacketData "D"
    pure [p1, "+", p3, p4, pA, p6, pd]
  else
    let pc ← gdbPacketData "vCont;c"
    pure [p1, "+", p3, p4, pA, p6, pc]

/-! ## Claim theorems -/

/-- C1 (amended): isDataReceivingCompleted is true iff the reply has a
truthy Status property, a truthy Complete property, and the PercentComplete
property is absent or falsy. The source tests JS truthiness, not mere
presence, so a present-but-falsy PercentComplete (such as 0) does not block
completion and a present-but-falsy Status or Complete does not establish
it. -/
theorem c1_completion_policy_amended (reply : List (String × JSVal)) :
    isDataReceivingCompleted reply = true ↔
      ((∃ v, jsGet reply "Status" = some v ∧ jsTruthy v = true) ∧
       (∃ v, jsGet reply "Complete" = some v ∧ jsTruthy v = true) ∧
       (∀ v, jsGet reply "PercentComplete" = some v → jsTruthy v = false)) := by
  unfold isDataReceivingCompleted jsGetTruthy
  cases h1 : jsGet reply "Status" <;>
    cases h2 : jsGet reply "Complete" <;>
      cases h3 : jsGet reply "PercentComplete" <;>
        simp [h1, h2, h3, and_assoc]

/-- C1 counterexample: the dictionary with Status "Complete", Complete true
and PercentComplete 0 contains a PercentComplete field, so the claim says it
is not complete, yet isDataReceivingCompleted returns true (0 is falsy). -/
theorem c1_counterexample :
    isDataReceivingCompleted
        [("Status", .str "Complete"), ("Complete", .bool true), ("PercentComplete", .num 0)] = true ∧
      jsHas [("Status", .str "Complete"), ("Complete", .bool true), ("PercentComplete", .num 0)]
        "PercentComplete" = true := by
  constructor <;> rfl

/-- C3: WinSocket.createPlist maps every nested dictionary value to an empty
dict node, so two distinct inputs that differ only inside a nested
dictionary (nesting depth 2) produce identical encodings; no decoder can
round-trip both, refuting decode(encode(v, f), f) = v at depth 2. -/
theorem c3_createPlist_collision :
    createPlist [("outer", .dict [("inner", .str "x")])] = createPlist [("outer", .dict [])] ∧
      ([("outer", JSVal.dict [("inner", JSVal.str "x")])] : List (String × JSVal)) ≠
        [("outer", JSVal.dict [])] := by
  refine ⟨rfl, fun h => ?_⟩
  simp at h

/-- C4: the checksum of QStartNoAckMode is 176 = 0xb0, rendered as the two
lowercase hex digits b0 as the claim states; but the rendering is JS
toString(16) with no zero padding, so the payload UUV (character-code sum
256, checksum 0) is framed with the single digit 0 instead of the claimed
two digits. -/
theorem c4_checksum_rendering :
    gdbPacketData "QStartNoAckMode" = some "$QStartNoAckMode#b0" ∧
      gdbPacketData "UUV" = some "$UUV#0" ∧
      gdbChecksum "UUV" = 0 := by
  refine ⟨?_, ?_, ?_⟩ <;> rfl

/-- C5: the signal watcher compares the byte immediately after the T or S -
the second payload byte - against the digit 9, so the SIGKILL stop reply
starting with the three payload bytes T 0 9 (third payload byte 9, as the
claim requires) does not trigger process.exit, while a T 9 x reply does;
the T 0 5 stream does not terminate, as the claim also says. -/
theorem c5_signal_watcher :
    gdbSignalKill (strCodes "$T09#b8") = false ∧
      gdbSignalKill (strCodes "$T90#00") = true ∧
      gdbSignalKill (strCodes "$T05#aa") = false := by
  refine ⟨?_, ?_, ?_⟩ <;> rfl

/-- C9: WinSocket.read returns the whole allocated buffer regardless of how
many bytes recv wrote, and receiveMessageCore silently returns an empty
reply when the 4-byte length read yields null. Consequently a zero-length
read during the length phase yields ok with an empty value instead of a
connection error, a 2-of-4-byte partial length read is zero padded and
parsed as length 0, and only the unsplit happy path returns the payload. -/
theorem c9_receive_sync :
    receiveMessageCore [.closed] = .ok [] ∧
      receiveMessageCore [.gotBytes [0, 0]] = .ok [] ∧
      receiveMessageCore [.gotBytes [0, 0, 0, 2], .gotBytes [7, 8]] = .ok [7, 8] := by
  refine ⟨?_, ?_, ?_⟩ <;> rfl

/-- C6 counterexample: a session on Windows configured launch-only
(justlaunch) writes vCont;c as its final packet, not the D packet the claim
prescribes for launch-only sessions, so the write sequence differs from the
claimed one already for an empty argument list. -/
theorem c6_counterexample :
    gdbRunWrites true true [] ≠ specRunWrites true [] := by
  decide

/-! ## Lemmas about the output-adapter scan -/

theorem splitAtHash_append {p : List Nat} (r : List Nat) (hp : 35 ∉ p) :
    splitAtHash (p ++ 35 :: r) = some (p, r) := by
  induction p with
  | nil => simp [splitAtHash]
  | cons b tl ih =>
    have hb : ¬(b == 35) = true := by
      simp only [beq_iff_eq]
      intro hb
      exact hp (by simp [hb])
    have htl : 35 ∉ tl := fun hm => hp (List.mem_cons_of_mem _ hm)
    simp [splitAtHash, hb, ih htl]

theorem splitAtHash_of_mem {l : List Nat} (h : 35 ∈ l) :
    ∃ p a, splitAtHash l = some (p, a) := by
  induction l with
  | nil => simp at h
  | cons b tl ih =>
    by_cases hb : (b == 35) = true
    · exact ⟨[], tl, by simp [splitAtHash, hb]⟩
    · have hm : 35 ∈ tl := by
        rcases List.mem_cons.mp h with h1 | h1
        · exact absurd (by simp [h1] : (b == 35) = true) hb
        · exact h1
      obtain ⟨p, a, hpa⟩ := ih hm
      exact ⟨b :: p, a, by simp [splitAtHash, hb, hpa]⟩

theorem splitAtHash_none {l : List Nat} (h : 35 ∉ l) :
    splitAtHash l = none := by
  induction l with
  | nil => rfl
  | cons b tl ih =>
    have hb : ¬(b == 35) = true := by
      simp only [beq_iff_eq]
      intro hb
      exact h (by simp [hb])
    have htl : 35 ∉ tl := fun hm => h (List.mem_cons_of_mem _ hm)
    simp [splitAtHash, hb, ih htl]

theorem splitAtHash_decomp {l p a : List Nat} (h : splitAtHash l = some (p, a)) :
    l = p ++ 35 :: a := by
  induction l generalizing p a with
  | nil => simp [splitAtHash] at h
  | cons b tl ih =>
    by_cases hb : (b == 35) = true
    · rw [splitAtHash, if_pos hb] at h
      have h1 := congrArg Prod.fst (Option.some.inj h)
      have h2 := congrArg Prod.snd (Option.some.inj h)
      simp only at h1 h2
      rw [← h1, ← h2]
      simp [beq_iff_eq.mp hb]
    · rw [splitAtHash, if_neg hb] at h
      cases hsp : splitAtHash tl with
      | none => rw [hsp] at h; exact absurd h (by simp)
      | some pa =>
        obtain ⟨p2, a2⟩ := pa
        rw [hsp] at h
        have h1 := congrArg Prod.fst (Option.some.inj h)
        have h2 := congrArg Prod.snd (Option.some.inj h)
        simp only at h1 h2
        rw [← h1, ← h2, ih hsp]
        simp

/-- If every dollar byte of the chunk is followed by a later hash byte, the
scan terminates (induction on an explicit length bound). -/
theorem gdbScan_total_aux (n : Nat) :
    ∀ (pending chunk : List Nat), chunk.length ≤ n →
      (∀ l1 l2, chunk = l1 ++ 36 :: l2 → 35 ∈ l2) →
      (gdbScan pending chunk).isSome = true := by
  induction n with
  | zero =>
    intro pending chunk hlen _
    have hnil : chunk = [] := List.length_eq_zero.mp (Nat.le_zero.mp hlen)
    subst hnil
    simp [gdbScan]
  | succ n ih =>
    intro pending chunk hlen hc
    match chunk with
    | [] => simp [gdbScan]
    | b :: rest =>
      by_cases hb : (b == 36) = true
      · have h36 : b = 36 := beq_iff_eq.mp hb
        subst h36
        have h35 : 35 ∈ rest := hc [] rest rfl
        simp only [gdbScan]
        rw [if_pos hb]
        split
        · next heq =>
          obtain ⟨p, a, hpa⟩ := splitAtHash_of_mem h35
          rw [hpa] at heq
          exact absurd heq (by simp)
        · next payload after heq =>
          have hdecomp := splitAtHash_decomp heq
          have hlenafter := splitAtHash_length heq
          have hprop : ∀ l1 l2, after.drop 2 = l1 ++ 36 :: l2 → 35 ∈ l2 := by
            intro l1 l2 hd
            have ha2 : after = after.take 2 ++ (l1 ++ 36 :: l2) := by
              conv_lhs => rw [← List.take_append_drop 2 after]
              rw [hd]
            refine hc (36 :: payload ++ 35 :: (after.take 2 ++ l1)) l2 ?_
            rw [hdecomp]
            nth_rewrite 1 [ha2]
            simp
          have hlen2 : (after.drop 2).length ≤ n := by
            simp only [List.length_cons] at hlen
            simp only [List.length_drop]
            omega
          by_cases hqual : gdbQualifies payload = true
          · rw [if_pos hqual]
            have hq1 := ih ((utf8Write pending (hexDecodePairs ((payload.drop 1).map (fun x => x % 128)))).1)
              (after.drop 2) hlen2 hprop
            cases hres : gdbScan ((utf8Write pending (hexDecodePairs ((payload.drop 1).map (fun x => x % 128)))).1)
                (after.drop 2) with
            | none => rw [hres] at hq1; simp at hq1
            | some r => simp
          · rw [if_neg hqual]
            have hq2 := ih pending (after.drop 2) hlen2 hprop
            cases hres : gdbScan pending (after.drop 2) with
            | none => rw [hres] at hq2; simp at hq2
            | some r => simp
      · have hprop : ∀ l1 l2, rest = l1 ++ 36 :: l2 → 35 ∈ l2 := by
          intro l1 l2 hd
          exact hc (b :: l1) l2 (by rw [hd]; simp)
        have hlen2 : rest.length ≤ n := by
          simp only [List.length_cons] at hlen
          omega
        simp only [gdbScan, hb, if_false]
        exact ih pending rest hlen2 hprop

/-- A chunk that contains a dollar byte but no hash byte at all makes the
scan diverge. -/
theorem gdbScan_none_aux (pending : List Nat) :
    ∀ (chunk : List Nat), 35 ∉ chunk → 36 ∈ chunk → gdbScan pending chunk = none := by
  intro chunk
  induction chunk with
  | nil => intro _ h36; simp at h36
  | cons b rest ih =>
    intro h35 h36
    by_cases hb : (b == 36) = true
    · have hrest : 35 ∉ rest := fun hm => h35 (List.mem_cons_of_mem _ hm)
      have hnone := splitAtHash_none hrest
      simp only [gdbScan]
      rw [if_pos hb]
      split
      · rfl
      · next payload after heq => rw [hnone] at heq; exact absurd heq (by simp)
    · have h36r : 36 ∈ rest := by
        rcases List.mem_cons.mp h36 with h1 | h1
        · exact absurd (by simp [h1.symm] : (b == 36) = true) hb
        · exact h1
      have h35r : 35 ∉ rest := fun hm => h35 (List.mem_cons_of_mem _ hm)
      simp only [gdbScan, hb, if_false]
      exact ih h35r h36r

/-- C10 counterexample: the chunk dollar a hash dollar dollar terminates
(the two trailing dollar bytes are consumed as the checksum of the first
packet and never examined), yet its dollar byte at index 3 has no later
hash byte, so the claimed equivalence between termination and every dollar
having a later hash fails. -/
theorem c10_counterexample :
    (gdbScan [] [36, 97, 35, 36, 36]).isSome = true ∧
      [36, 97, 35, 36, 36] = [36, 97, 35] ++ 36 :: [36] ∧ (35 : Nat) ∉ [36] := by
  refine ⟨?_, rfl, by decide⟩
  simp [gdbScan, splitAtHash, gdbQualifies]

/-- C10 (amended): the scan terminates whenever every dollar byte in the
chunk is followed by a later hash byte (sufficient, not necessary), and it
diverges whenever the chunk contains a dollar byte but no hash byte at all
- in particular a debug packet split across chunk boundaries (its dollar
arriving without its hash) hangs the inner loop, so correct operation
requires each packet to be wholly contained in a single chunk. -/
theorem c10_scan_termination_amended :
    (∀ (pending chunk : List Nat),
        (∀ l1 l2, chunk = l1 ++ 36 :: l2 → 35 ∈ l2) →
        (gdbScan pending chunk).isSome = true) ∧
      (∀ (pending chunk : List Nat), 35 ∉ chunk → 36 ∈ chunk →
        gdbScan pending chunk = none) := by
  constructor
  · intro pending chunk hc
    exact gdbScan_total_aux chunk.length pending chunk le_rfl hc
  · intro pending chunk h35 h36
    exact gdbScan_none_aux pending chunk h35 h36

/-- C10 witness: the amended theorem applied to the one-packet chunk
dollar hash (every dollar followed by a hash, scan terminates) and to the
split-packet chunk dollar O (no hash, scan diverges). -/
theorem c10_witness :
    (gdbScan [] [36, 35]).isSome = true ∧ gdbScan [] [36, 79] = none := by
  constructor
  · refine c10_scan_termination_amended.1 [] [36, 35] ?_
    intro l1 l2 h
    rcases l1 with _ | ⟨x, _ | ⟨y, t⟩⟩
    · simp at h
      simp [← h]
    · simp_all
    · simp_all
  · exact c10_scan_termination_amended.2 [] [36, 79] (by decide) (by decide)

/-- C7: for a chunk holding exactly one well-formed packet, the packet
contributes console output iff its first payload byte is O (79) and its
second payload byte is not K (75): a qualifying payload is emitted with its
leading O dropped, the remaining bytes masked to 7 bits (toString ascii),
hex-decoded pairwise, and passed through the stateful UTF-8 decoder, while
a non-qualifying packet leaves the decoder state untouched and emits
nothing. The concrete conjuncts check the claimed example pair - OK emits
nothing and O68656c6c6f emits hello - and that a two-byte code point split
across two packets (c3 then a9) is held as pending state and emitted once
complete. -/
theorem c7_output_adapter :
    (∀ (pending payload : List Nat) (c1 c2 : Nat), 35 ∉ payload →
        gdbScan pending (36 :: (payload ++ [35, c1, c2])) =
          some (if gdbQualifies payload = true then
                  utf8Write pending (hexDecodePairs ((payload.drop 1).map (fun x => x % 128)))
                else (pending, ""))) ∧
      gdbScan [] (strCodes "$OK#9a") = some ([], "") ∧
      gdbScan [] (strCodes "$O68656c6c6f#05") = some ([], "hello") ∧
      gdbScan [] (strCodes "$Oc3#00") = some ([195], "") ∧
      gdbScan [195] (strCodes "$Oa9#00") = some ([], "é") := by
  refine ⟨?_, ?_, ?_, ?_, ?_⟩
  · intro pending payload c1 c2 hp
    simp only [gdbScan]
    rw [if_pos (by simp : ((36 : Nat) == 36) = true)]
    split
    · next heq =>
      rw [splitAtHash_append [c1, c2] hp] at heq
      exact absurd heq (by simp)
    · next p2 a2 heq =>
      rw [splitAtHash_append [c1, c2] hp] at heq
      have h1 := congrArg Prod.fst (Option.some.inj heq)
      have h2 := congrArg Prod.snd (Option.some.inj heq)
      simp only at h1 h2
      subst h1
      subst h2
      by_cases hq : gdbQualifies payload = true
      · rw [if_pos hq, if_pos hq]
        simp [gdbScan]
      · rw [if_neg hq, if_neg hq]
        simp [gdbScan]
  · simp [gdbScan, strCodes, splitAtHash, gdbQualifies, utf8Write, utf8Run, hexDecodePairs, hexVal, utf8Cont]
  · simp [gdbScan, strCodes, splitAtHash, gdbQualifies, utf8Write, utf8Run, hexDecodePairs, hexVal, utf8Cont]
  · simp [gdbScan, strCodes, splitAtHash, gdbQualifies, utf8Write, utf8Run, hexDecodePairs, hexVal, utf8Cont]
  · simp [gdbScan, strCodes, splitAtHash, gdbQualifies, utf8Write, utf8Run, hexDecodePairs, hexVal, utf8Cont]

/-- C7 witness: the single-packet characterization applied to the packet
with payload O K and checksum bytes 9 a. -/
theorem c7_witness :
    gdbScan [] (36 :: ([79, 75] ++ [35, 57, 97])) =
      some (if gdbQualifies [79, 75] = true then
              utf8Write [] (hexDecodePairs (([79, 75].drop 1).map (fun x => x % 128)))
            else ([], "")) :=
  c7_output_adapter.1 [] [79, 75] 57 97 (by decide)

/-- Folding the JS string-length step over ASCII characters counts exactly
the UTF-8 bytes. -/
theorem ascii_foldl (l : List Char) :
    (∀ c ∈ l, c.toNat < 128) → ∀ a : Nat,
      l.foldl (fun n c => n + (if c.toNat < 65536 then 1 else 2)) a =
        a + ((l.map utf8EncodeChar).flatten).length := by
  induction l with
  | nil => intro _ a; simp
  | cons c tl ih =>
    intro h a
    have hc : c.toNat < 128 := h c (List.mem_cons_self c tl)
    have htl : ∀ x ∈ tl, x.toNat < 128 := fun x hx => h x (List.mem_cons_of_mem _ hx)
    simp only [List.foldl_cons, List.map_cons, List.flatten_cons, List.length_append]
    rw [ih htl]
    have henc : (utf8EncodeChar c).length = 1 := by
      simp [utf8EncodeChar, hc]
    have hone : (if c.toNat < 65536 then 1 else 2) = 1 := if_pos (by omega)
    rw [henc, hone]
    omega

/-- For an ASCII string the JS length equals the UTF-8 byte length. -/
theorem jsStrLen_ascii (s : String) (h : ∀ c ∈ s.data, c.toNat < 128) :
    jsStrLen s = (utf8Bytes s).length := by
  unfold jsStrLen utf8Bytes
  rw [ascii_foldl s.data h 0]
  omega

/-- C6 (amended): for ASCII argument lists the handshake writes exactly the
claimed packets in the claimed order with per-argument triples 2L,i,H and L
the byte length - but the resume directive is D only when the session is
launch-only AND the host is not Windows; on Windows vCont;c is always sent
(and for non-ASCII arguments the first triple field would be twice the
UTF-16 length, not twice the byte length). -/
theorem c6_run_amended (isWindows justlaunch : Bool) (argv : List String)
    (hascii : ∀ s ∈ argv, ∀ c ∈ s.data, c.toNat < 128) :
    gdbRunWrites isWindows justlaunch argv = specRunWrites (!isWindows && justlaunch) argv := by
  have hargs : gdbEncodedArguments argv = String.intercalate ","
      (((List.range argv.length).zip argv).map (fun pr =>
        natDec ((utf8Bytes pr.2).length * 2) ++ "," ++ natDec pr.1 ++ "," ++ bytesToHex (utf8Bytes pr.2))) := by
    unfold gdbEncodedArguments
    congr 1
    apply List.map_congr_left
    intro pr hpr
    have hmem : pr.2 ∈ argv := (List.of_mem_zip hpr).2
    unfold gdbArgTriple
    rw [jsStrLen_ascii pr.2 (hascii pr.2 hmem)]
  unfold gdbRunWrites specRunWrites
  rw [hargs]
  cases isWindows <;> cases justlaunch <;> rfl

/-- C6 witness: the amended handshake equality at a concrete ASCII argument
list on a non-Windows, non-launch-only session. -/
theorem c6_witness :
    gdbRunWrites false false ["ab"] = specRunWrites (!false && false) ["ab"] :=
  c6_run_amended false false ["ab"] (by decide)

/-! ## Lemmas about the streaming state machine -/

theorem lenBE4_length (n : Nat) : (lenBE4 n).length = 4 := rfl

/-- The sender's 4-byte big-endian prefix reads back as the payload length
for lengths below 2^31 (readInt32BE is signed). -/
theorem readInt32BE_lenBE4 (n : Nat) (rest : List Nat) (h : n < 2 ^ 31) :
    readInt32BE (lenBE4 n ++ rest) = (n : Int) := by
  unfold readInt32BE lenBE4
  simp only [List.cons_append, List.getD_cons_zero, List.getD_cons_succ]
  have e24 : (2 : Nat) ^ 24 = 16777216 := by norm_num
  have e16 : (2 : Nat) ^ 16 = 65536 := by norm_num
  have e8 : (2 : Nat) ^ 8 = 256 := by norm_num
  have e31 : (2 : Nat) ^ 31 = 2147483648 := by norm_num
  have hm : n / 2 ^ 24 % 256 * 2 ^ 24 + n / 2 ^ 16 % 256 * 2 ^ 16 + n / 2 ^ 8 % 256 * 2 ^ 8 + n % 256 = n := by
    rw [e24, e16, e8]
    omega
  rw [hm, if_pos (by omega)]

theorem prefix_take {x y d t : List Nat} (heq : d ++ t = x ++ y) (h : x.length ≤ d.length) :
    d.take x.length = x := by
  have h1 : (d ++ t).take x.length = d.take x.length := List.take_append_of_le_length h
  rw [heq, List.take_left] at h1
  exact h1.symm

theorem prefix_drop {x y d t : List Nat} (heq : d ++ t = x ++ y) (h : x.length ≤ d.length) :
    d.drop x.length ++ t = y := by
  have h1 : (d ++ t).drop x.length = d.drop x.length ++ t := List.drop_append_of_le_length h
  rw [heq, List.drop_left] at h1
  exact h1.symm

theorem jsSliceIndex_ofNat (len k : Nat) (h : k ≤ len) : jsSliceIndex len (k : Int) = k := by
  unfold jsSliceIndex
  rw [if_neg (by omega)]
  simp [Int.toNat_ofNat]
  omega

theorem streamBytes_cons (p : List Nat) (ps : List (List Nat)) :
    streamBytes (p :: ps) = lenBE4 p.length ++ (p ++ streamBytes ps) := by
  simp [streamBytes, frameBytes]

/-- The quiescent configuration invariant: the partial bytes of the next
frame do not complete it (and are empty when no frames remain). -/
def incompleteFor : List (List Nat) → List Nat → Prop
  | [], b => b = []
  | p :: _, b => b.length < 4 + p.length

theorem mstateOf_nil (ps : List (List Nat)) : mstateOf ps [] = initialMState := by
  cases ps <;> simp [mstateOf, initialMState]

theorem incompleteFor_nil (ps : List (List Nat)) : incompleteFor ps [] := by
  cases ps <;> simp [incompleteFor]

/-- If the loop guard fails the drain stops at once, emitting nothing. -/
theorem drainF_stop (fuel : Nat) (s : MState) (hf : 1 ≤ fuel)
    (h : ¬s.expLen ≤ (s.buffer.length : Int)) :
    drainF fuel s = some (s, []) := by
  obtain ⟨f, rfl⟩ : ∃ f, fuel = f + 1 := ⟨fuel - 1, by omega⟩
  simp [drainF, h]

theorem alignDrop_cons (p : List Nat) (ps : List (List Nat)) (d : List Nat) :
    alignDrop (p :: ps) d =
      if 4 + p.length ≤ d.length then alignDrop ps (d.drop (4 + p.length))
      else (p :: ps, d) := rfl

theorem alignEmit_cons (p : List Nat) (ps : List (List Nat)) (d : List Nat) :
    alignEmit (p :: ps) d =
      if 4 + p.length ≤ d.length then p :: alignEmit ps (d.drop (4 + p.length))
      else [] := rfl

theorem mstateOf_cons (p : List Nat) (ps : List (List Nat)) (b : List Nat) :
    mstateOf (p :: ps) b =
      if b.length < 4 then ⟨b, .Length, 4⟩
      else ⟨b.drop 4, .Plist, (p.length : Int)⟩ := rfl

/-- Master lemma: feeding any further chunk c from a quiescent aligned
configuration (partial bytes b of the next frame) drains to the aligned
configuration of b ++ c, emitting exactly the frames completed within c. -/
theorem drain_aligned :
    ∀ (ps : List (List Nat)) (b c : List Nat) (fuel : Nat),
      (∀ p ∈ ps, p.length < 2 ^ 31) →
      (∃ t, (b ++ c) ++ t = streamBytes ps) →
      incompleteFor ps b →
      (b ++ c).length + 2 ≤ fuel →
      drainF fuel ⟨(mstateOf ps b).buffer ++ c, (mstateOf ps b).rstate, (mstateOf ps b).expLen⟩ =
        some (mstateOf (alignDrop ps (b ++ c)).1 (alignDrop ps (b ++ c)).2,
          alignEmit ps (b ++ c)) := by
  intro ps
  induction ps with
  | nil =>
    intro b c fuel _ hpre hinc hfuel
    have hb : b = [] := hinc
    subst hb
    obtain ⟨t, ht⟩ := hpre
    simp only [streamBytes, List.map_nil, List.flatten_nil, List.nil_append,
      List.append_eq_nil] at ht
    obtain ⟨hc, -⟩ := ht
    subst hc
    rw [mstateOf_nil]
    rw [drainF_stop fuel _ (by omega) (by simp [initialMState])]
    simp [initialMState, alignDrop, alignEmit, mstateOf]
  | cons p ps ih =>
    intro b c fuel hwf hpre hinc hfuel
    obtain ⟨t, ht⟩ := hpre
    rw [streamBytes_cons] at ht
    have hp31 : p.length < 2 ^ 31 := hwf p (List.mem_cons_self p ps)
    have hwf2 : ∀ q ∈ ps, q.length < 2 ^ 31 := fun q hq => hwf q (List.mem_cons_of_mem _ hq)
    have hinc2 : b.length < 4 + p.length := hinc
    have hble : b.length ≤ (b ++ c).length := by simp
    by_cases hd4 : (b ++ c).length < 4
    · have hb4 : b.length < 4 := by omega
      rw [mstateOf_cons, if_pos hb4]
      rw [drainF_stop fuel _ (by omega)
        (by show ¬((4 : Int) ≤ ((b ++ c).length : Int)); omega)]
      have halign : ¬(4 + p.length ≤ (b ++ c).length) := by omega
      rw [alignDrop_cons, if_neg halign, alignEmit_cons, if_neg halign]
      show some _ = some (mstateOf (p :: ps) (b ++ c), [])
      rw [mstateOf_cons, if_pos hd4]
    · push_neg at hd4
      have htake4 : (b ++ c).take 4 = lenBE4 p.length := by
        have h1 := prefix_take ht (by rw [lenBE4_length]; omega)
        rwa [lenBE4_length] at h1
      have hdrop4 : (b ++ c).drop 4 ++ t = p ++ streamBytes ps := by
        have h1 := prefix_drop ht (by rw [lenBE4_length]; omega)
        rwa [lenBE4_length] at h1
      have hread : readInt32BE (b ++ c) = (p.length : Int) := by
        conv_lhs => rw [← List.take_append_drop 4 (b ++ c), htake4]
        exact readInt32BE_lenBE4 p.length ((b ++ c).drop 4) hp31
      by_cases hdp : (b ++ c).length < 4 + p.length
      · -- the chunk does not complete the frame
        have halign : ¬(4 + p.length ≤ (b ++ c).length) := by omega
        by_cases hb4 : b.length < 4
        · rw [mstateOf_cons, if_pos hb4]
          obtain ⟨f1, rfl⟩ : ∃ f1, fuel = f1 + 1 := ⟨fuel - 1, by omega⟩
          simp only [drainF]
          rw [if_pos (by show (4 : Int) ≤ ((b ++ c).length : Int); omega)]
          rw [hread]
          rw [drainF_stop f1 _ (by omega)
            (by show ¬((p.length : Int) ≤ (((b ++ c).drop 4).length : Int))
                simp only [List.length_drop]
                omega)]
          rw [alignDrop_cons, if_neg halign, alignEmit_cons, if_neg halign]
          show some _ = some (mstateOf (p :: ps) (b ++ c), [])
          rw [mstateOf_cons, if_neg (by omega)]
        · push_neg at hb4
          rw [mstateOf_cons, if_neg (by omega)]
          have hbuf : b.drop 4 ++ c = (b ++ c).drop 4 :=
            (List.drop_append_of_le_length hb4).symm
          simp only [hbuf]
          rw [drainF_stop fuel _ (by omega)
            (by show ¬((p.length : Int) ≤ (((b ++ c).drop 4).length : Int))
                simp only [List.length_drop]
                omega)]
          rw [alignDrop_cons, if_neg halign, alignEmit_cons, if_neg halign]
          show some _ = some (mstateOf (p :: ps) (b ++ c), [])
          rw [mstateOf_cons, if_neg (by omega)]
      · -- the chunk completes the frame: slice it and recurse
        push_neg at hdp
        have hple : p.length ≤ ((b ++ c).drop 4).length := by
          simp only [List.length_drop]
          omega
        have htakep : ((b ++ c).drop 4).take p.length = p := prefix_take hdrop4 hple
        have hdropp : ((b ++ c).drop 4).drop p.length ++ t = streamBytes ps :=
          prefix_drop hdrop4 hple
        have hdd : ((b ++ c).drop 4).drop p.length = (b ++ c).drop (4 + p.length) := by
          rw [List.drop_drop, Nat.add_comm]
        have hslice : bufSliceTo ((b ++ c).drop 4) (p.length : Int) = p := by
          unfold bufSliceTo
          rw [jsSliceIndex_ofNat _ _ hple]
          exact htakep
        have hslicefrom : bufSliceFrom ((b ++ c).drop 4) (p.length : Int) =
            (b ++ c).drop (4 + p.length) := by
          unfold bufSliceFrom
          rw [jsSliceIndex_ofNat _ _ hple]
          exact hdd
        have hguardp : ((p.length : Int)) ≤ (((b ++ c).drop 4).length : Int) := by
          simp only [List.length_drop]
          omega
        have hpredrop : ∃ t2, (([] : List Nat) ++ (b ++ c).drop (4 + p.length)) ++ t2 = streamBytes ps :=
          ⟨t, by rw [List.nil_append, ← hdd]; exact hdropp⟩
        have halign : 4 + p.length ≤ (b ++ c).length := hdp
        by_cases hb4 : b.length < 4
        · rw [mstateOf_cons, if_pos hb4]
          obtain ⟨f2, rfl⟩ : ∃ f2, fuel = f2 + 2 := ⟨fuel - 2, by omega⟩
          have hrec := ih [] ((b ++ c).drop (4 + p.length)) f2 hwf2 hpredrop
            (incompleteFor_nil ps)
            (by simp only [List.nil_append, List.length_drop]; omega)
          rw [mstateOf_nil] at hrec
          simp only [initialMState, List.nil_append] at hrec
          show drainF (f2 + 1 + 1) _ = _
          simp only [drainF]
          rw [if_pos (by show (4 : Int) ≤ ((b ++ c).length : Int); omega)]
          rw [hread]
          rw [if_pos hguardp]
          rw [hslice, hslicefrom]
          rw [hrec]
          rw [alignDrop_cons, if_pos halign, alignEmit_cons, if_pos halign]
        · push_neg at hb4
          rw [mstateOf_cons, if_neg (by omega)]
          have hbuf : b.drop 4 ++ c = (b ++ c).drop 4 :=
            (List.drop_append_of_le_length hb4).symm
          simp only [hbuf]
          obtain ⟨f1, rfl⟩ : ∃ f1, fuel = f1 + 1 := ⟨fuel - 1, by omega⟩
          have hrec := ih [] ((b ++ c).drop (4 + p.length)) f1 hwf2 hpredrop
            (incompleteFor_nil ps)
            (by simp only [List.nil_append, List.length_drop]; omega)
          rw [mstateOf_nil] at hrec
          simp only [initialMState, List.nil_append] at hrec
          simp only [drainF]
          rw [if_pos hguardp]
          rw [hslice, hslicefrom]
          rw [hrec]
          rw [alignDrop_cons, if_pos halign, alignEmit_cons, if_pos halign]

theorem frameBytes_length (p : List Nat) : (frameBytes p).length = 4 + p.length := by
  simp [frameBytes, lenBE4]
  omega

theorem alignDrop_append : ∀ (ps : List (List Nat)) (d X : List Nat),
    alignDrop ps (d ++ X) = alignDrop (alignDrop ps d).1 ((alignDrop ps d).2 ++ X) := by
  intro ps
  induction ps with
  | nil => intro d X; rfl
  | cons p ps ih =>
    intro d X
    by_cases h : 4 + p.length ≤ d.length
    · have h2 : 4 + p.length ≤ (d ++ X).length := by
        simp only [List.length_append]
        omega
      rw [alignDrop_cons, if_pos h2]
      rw [show alignDrop (p :: ps) d = alignDrop ps (d.drop (4 + p.length)) from by
        rw [alignDrop_cons, if_pos h]]
      rw [List.drop_append_of_le_length (by omega)]
      exact ih (d.drop (4 + p.length)) X
    · rw [show alignDrop (p :: ps) d = (p :: ps, d) from by rw [alignDrop_cons, if_neg h]]

theorem alignEmit_append : ∀ (ps : List (List Nat)) (d X : List Nat),
    alignEmit ps (d ++ X) =
      alignEmit ps d ++ alignEmit (alignDrop ps d).1 ((alignDrop ps d).2 ++ X) := by
  intro ps
  induction ps with
  | nil => intro d X; rfl
  | cons p ps ih =>
    intro d X
    by_cases h : 4 + p.length ≤ d.length
    · have h2 : 4 + p.length ≤ (d ++ X).length := by
        simp only [List.length_append]
        omega
      rw [alignEmit_cons, if_pos h2]
      rw [show alignEmit (p :: ps) d = p :: alignEmit ps (d.drop (4 + p.length)) from by
        rw [alignEmit_cons, if_pos h]]
      rw [show alignDrop (p :: ps) d = alignDrop ps (d.drop (4 + p.length)) from by
        rw [alignDrop_cons, if_pos h]]
      rw [List.drop_append_of_le_length (by omega)]
      rw [ih (d.drop (4 + p.length)) X]
      rfl
    · rw [show alignEmit (p :: ps) d = [] from by rw [alignEmit_cons, if_neg h]]
      rw [show alignDrop (p :: ps) d = (p :: ps, d) from by rw [alignDrop_cons, if_neg h]]
      rfl

theorem alignDrop_subset : ∀ (ps : List (List Nat)) (d : List Nat) (q : List Nat),
    q ∈ (alignDrop ps d).1 → q ∈ ps := by
  intro ps
  induction ps with
  | nil => intro d q hq; exact hq
  | cons p ps ih =>
    intro d q hq
    by_cases h : 4 + p.length ≤ d.length
    · rw [alignDrop_cons, if_pos h] at hq
      exact List.mem_cons_of_mem _ (ih _ q hq)
    · rw [alignDrop_cons, if_neg h] at hq
      exact hq

theorem alignDrop_stream : ∀ (ps : List (List Nat)) (d X t : List Nat),
    (d ++ X) ++ t = streamBytes ps →
    ((alignDrop ps d).2 ++ X) ++ t = streamBytes (alignDrop ps d).1 := by
  intro ps
  induction ps with
  | nil => intro d X t ht; exact ht
  | cons p ps ih =>
    intro d X t ht
    by_cases h : 4 + p.length ≤ d.length
    · rw [alignDrop_cons, if_pos h]
      have ht2 : d ++ (X ++ t) = frameBytes p ++ streamBytes ps := by
        rw [← List.append_assoc, ht, streamBytes_cons, frameBytes]
        simp [List.append_assoc]
      have hlen : (frameBytes p).length ≤ d.length := by
        rw [frameBytes_length]
        omega
      have hdr := prefix_drop ht2 hlen
      rw [frameBytes_length] at hdr
      apply ih
      rw [List.append_assoc]
      exact hdr
    · rw [alignDrop_cons, if_neg h]
      exact ht

theorem alignDrop_incomplete : ∀ (ps : List (List Nat)) (d : List Nat),
    (∃ t, d ++ t = streamBytes ps) →
    incompleteFor (alignDrop ps d).1 (alignDrop ps d).2 := by
  intro ps
  induction ps with
  | nil =>
    intro d hpre
    obtain ⟨t, ht⟩ := hpre
    simp only [streamBytes, List.map_nil, List.flatten_nil, List.append_eq_nil] at ht
    obtain ⟨hd, -⟩ := ht
    subst hd
    exact rfl
  | cons p ps ih =>
    intro d hpre
    obtain ⟨t, ht⟩ := hpre
    by_cases h : 4 + p.length ≤ d.length
    · rw [alignDrop_cons, if_pos h]
      apply ih
      have ht2 : d ++ t = frameBytes p ++ streamBytes ps := by
        rw [ht, streamBytes_cons, frameBytes]
        simp [List.append_assoc]
      have hlen : (frameBytes p).length ≤ d.length := by
        rw [frameBytes_length]
        omega
      have hdr := prefix_drop ht2 hlen
      rw [frameBytes_length] at hdr
      exact ⟨t, hdr⟩
    · rw [alignDrop_cons, if_neg h]
      show d.length < 4 + p.length
      omega

theorem alignDrop_of_incomplete : ∀ (ps : List (List Nat)) (b : List Nat),
    incompleteFor ps b → alignDrop ps b = (ps, b) ∧ alignEmit ps b = [] := by
  intro ps b hinc
  cases ps with
  | nil =>
    have hb : b = [] := hinc
    subst hb
    exact ⟨rfl, rfl⟩
  | cons p ps =>
    have hb : b.length < 4 + p.length := hinc
    constructor
    · rw [alignDrop_cons, if_neg (by omega)]
    · rw [alignEmit_cons, if_neg (by omega)]

theorem alignDrop_full : ∀ ps : List (List Nat),
    alignDrop ps (streamBytes ps) = ([], []) ∧ alignEmit ps (streamBytes ps) = ps := by
  intro ps
  induction ps with
  | nil => exact ⟨rfl, rfl⟩
  | cons p ps ih =>
    have hstream : streamBytes (p :: ps) = frameBytes p ++ streamBytes ps := by
      rw [streamBytes_cons, frameBytes]
      simp [List.append_assoc]
    have hlen : 4 + p.length ≤ (streamBytes (p :: ps)).length := by
      rw [hstream]
      simp only [List.length_append, frameBytes_length]
      omega
    have hdrop : (streamBytes (p :: ps)).drop (4 + p.length) = streamBytes ps := by
      rw [hstream, ← frameBytes_length p, List.drop_left]
    constructor
    · rw [alignDrop_cons, if_pos hlen, hdrop]
      exact ih.1
    · rw [alignEmit_cons, if_pos hlen, hdrop, ih.2]

/-- One chunk from an aligned quiescent configuration. -/
theorem feed_aligned (ps : List (List Nat)) (b c : List Nat)
    (hwf : ∀ p ∈ ps, p.length < 2 ^ 31)
    (hpre : ∃ t, (b ++ c) ++ t = streamBytes ps)
    (hinc : incompleteFor ps b) :
    feed (mstateOf ps b) c =
      some (mstateOf (alignDrop ps (b ++ c)).1 (alignDrop ps (b ++ c)).2,
        alignEmit ps (b ++ c)) := by
  unfold feed
  apply drain_aligned ps b c _ hwf hpre hinc
  cases ps with
  | nil =>
    have hb : b = [] := hinc
    subst hb
    simp [mstateOf]
  | cons p ps =>
    rw [mstateOf_cons]
    by_cases hb4 : b.length < 4
    · rw [if_pos hb4]
      simp only [List.length_append]
      omega
    · rw [if_neg hb4]
      simp only [List.length_drop, List.length_append]
      omega

/-- Feeding any chunk sequence from an aligned quiescent configuration. -/
theorem feedAll_from : ∀ (cs : List (List Nat)) (ps : List (List Nat)) (b : List Nat),
    (∀ p ∈ ps, p.length < 2 ^ 31) →
    (∃ t, (b ++ cs.flatten) ++ t = streamBytes ps) →
    incompleteFor ps b →
    feedAll (mstateOf ps b) cs =
      some (mstateOf (alignDrop ps (b ++ cs.flatten)).1 (alignDrop ps (b ++ cs.flatten)).2,
        alignEmit ps (b ++ cs.flatten)) := by
  intro cs
  induction cs with
  | nil =>
    intro ps b hwf hpre hinc
    obtain ⟨hAD, hAE⟩ := alignDrop_of_incomplete ps b hinc
    simp only [List.flatten_nil, List.append_nil]
    rw [hAD, hAE]
    rfl
  | cons c cs ih =>
    intro ps b hwf hpre hinc
    have hflat : b ++ (c :: cs).flatten = (b ++ c) ++ cs.flatten := by
      simp [List.flatten_cons, List.append_assoc]
    have hpre1 : ∃ t, (b ++ c) ++ t = streamBytes ps := by
      obtain ⟨t, ht⟩ := hpre
      refine ⟨cs.flatten ++ t, ?_⟩
      rw [← ht, hflat]
      simp [List.append_assoc]
    have hfeed := feed_aligned ps b c hwf hpre1 hinc
    have hwf1 : ∀ p ∈ (alignDrop ps (b ++ c)).1, p.length < 2 ^ 31 :=
      fun p hp => hwf p (alignDrop_subset ps (b ++ c) p hp)
    have hpre2 : ∃ t, ((alignDrop ps (b ++ c)).2 ++ cs.flatten) ++ t =
        streamBytes (alignDrop ps (b ++ c)).1 := by
      obtain ⟨t, ht⟩ := hpre
      refine ⟨t, ?_⟩
      apply alignDrop_stream
      rw [← hflat]
      exact ht
    have hinc1 := alignDrop_incomplete ps (b ++ c) hpre1
    have hrest := ih (alignDrop ps (b ++ c)).1 (alignDrop ps (b ++ c)).2 hwf1 hpre2 hinc1
    show (match feed (mstateOf ps b) c with
      | none => none
      | some (s1, fs) =>
        match feedAll s1 cs with
        | none => none
        | some (s2, fs2) => some (s2, fs ++ fs2)) = _
    simp only [hfeed]
    simp only [hrest]
    rw [hflat]
    rw [alignDrop_append ps (b ++ c) cs.flatten, alignEmit_append ps (b ++ c) cs.flatten]

/-- The streaming receiver consumes a complete chunked stream of frames,
emitting exactly the frame payloads and returning to the initial state. -/
theorem feedAll_stream (ps cs : List (List Nat))
    (hwf : ∀ p ∈ ps, p.length < 2 ^ 31)
    (hchunks : cs.flatten = streamBytes ps) :
    feedAll initialMState cs = some (initialMState, ps) := by
  have h := feedAll_from cs ps [] hwf
    ⟨[], by simp [hchunks]⟩ (incompleteFor_nil ps)
  rw [mstateOf_nil] at h
  rw [h]
  simp only [List.nil_append, hchunks]
  rw [(alignDrop_full ps).1, (alignDrop_full ps).2]
  rfl

/-- C2: for any N frames (payload lengths below 2^31, the signed range of
readInt32BE) concatenated and split into arbitrary chunks, the streaming
receiver emits exactly the N frame payloads, in order, byte-identical to
the frames that were encoded (hence identical to the direct decode of each
frame), and returns to the initial state; moreover in the Length state the
machine takes a step only when the buffer holds at least 4 bytes, and in
the Plist state it slices a frame only when the buffer holds at least
expectedLength bytes - otherwise it stops and emits nothing. -/
theorem c2_streaming_framing :
    (∀ (ps cs : List (List Nat)),
        (∀ p ∈ ps, p.length < 2 ^ 31) →
        cs.flatten = streamBytes ps →
        feedAll initialMState cs = some (initialMState, ps)) ∧
      (∀ (b : List Nat) (fuel : Nat), b.length < 4 → 1 ≤ fuel →
        drainF fuel ⟨b, .Length, 4⟩ = some (⟨b, .Length, 4⟩, [])) ∧
      (∀ (b : List Nat) (l : Int) (fuel : Nat), (b.length : Int) < l → 1 ≤ fuel →
        drainF fuel ⟨b, .Plist, l⟩ = some (⟨b, .Plist, l⟩, [])) := by
  refine ⟨feedAll_stream, ?_, ?_⟩
  · intro b fuel hb hf
    exact drainF_stop fuel _ hf (by show ¬((4 : Int) ≤ (b.length : Int)); omega)
  · intro b l fuel hb hf
    exact drainF_stop fuel _ hf (by show ¬(l ≤ (b.length : Int)); omega)

/-- C2 witness: two frames with payloads 1 2 and 3, the stream delivered in
one-byte chunks, are reassembled into exactly those two payloads; the
guards hold on concrete underfull buffers. -/
theorem c2_witness :
    feedAll initialMState [[0], [0], [0], [2], [1], [2], [0], [0], [0], [1], [3]] =
        some (initialMState, [[1, 2], [3]]) ∧
      drainF 1 ⟨[9, 9], .Length, 4⟩ = some (⟨[9, 9], .Length, 4⟩, []) ∧
      drainF 1 ⟨[9, 9], .Plist, 3⟩ = some (⟨[9, 9], .Plist, 3⟩, []) := by
  refine ⟨?_, ?_, ?_⟩
  · exact c2_streaming_framing.1 [[1, 2], [3]]
      [[0], [0], [0], [2], [1], [2], [0], [0], [0], [1], [3]] (by decide) (by decide)
  · exact c2_streaming_framing.2.1 [9, 9] 1 (by decide) (by decide)
  · exact c2_streaming_framing.2.2 [9, 9] 3 1 (by decide) (by decide)

/-- Streaming receive decorated with the per-frame decode of the source's
ReadState.Plist case (ios-core.ts:839-880): each sliced frame is handed to
bplistParser.parseBuffer inside try/catch, so a frame whose decode fails
(none) is only logged while a frame that decodes is processed; in both
cases the buffer is then advanced past the declared frame boundary
(ios-core.ts:875) and the loop continues. -/
def feedAllParsed {α : Type} (dec : List Nat → Option α) (s : MState)
    (cs : List (List Nat)) : Option (MState × List (Option α)) :=
  (feedAll s cs).map (fun r => (r.1, r.2.map dec))

/-- C8: with any per-frame decoder, if some frame of the stream fails to
decode, the streaming receive still succeeds (no error escapes the
try/catch), the machine advances past the bad frame at its declared
boundary back to the initial state, and every frame - including every
well-formed frame after the failing one - is still processed in order with
its own decode result. -/
theorem c8_decode_failure_recovery {α : Type} (dec : List Nat → Option α)
    (ps cs : List (List Nat)) (k : Nat)
    (hk : k < ps.length) (hfail : dec (ps.getD k []) = none)
    (hwf : ∀ p ∈ ps, p.length < 2 ^ 31)
    (hchunks : cs.flatten = streamBytes ps) :
    feedAllParsed dec initialMState cs = some (initialMState, ps.map dec) := by
  unfold feedAllParsed
  rw [feedAll_stream ps cs hwf hchunks]
  rfl

/-- C8 witness: a two-frame stream whose first frame fails to decode still
yields both per-frame results, the second one successfully decoded. -/
theorem c8_witness :
    feedAllParsed (fun f => if f = [1] then none else some f) initialMState
        [streamBytes [[1], [2]]] =
      some (initialMState, [[1], [2]].map (fun f => if f = [1] then none else some f)) :=
  c8_decode_failure_recovery (fun f => if f = [1] then none else some f)
    [[1], [2]] [streamBytes [[1], [2]]] 0 (by decide) (by decide) (by decide) (by decide)
